import Mathlib

/-
Formal model of the link-checking engine of telegram-linkstools (main.py),
with proofs of the behavioural claims made by its specification.

Modelling conventions:
* Python strings are modelled as lists of characters (`PyStr`) wherever
  prefix tests or slicing matter, and as Lean `String` for opaque text
  fields (titles, statuses, timestamps).
* Wall-clock time is rational; `time.sleep d` advances the clock by
  exactly `d` and nothing else advances it (a sequential, idealised
  monotonic clock).
* The network fetch together with the BeautifulSoup parse of
  `check_link` is an oracle `fetch : PyStr → Except String Response`:
  `Except.error e` stands for an exception with message `e` raised inside
  the try-block, `Except.ok resp` for a successfully parsed preview page
  (`resp.title` and `resp.extra` are the texts of the `tgme_page_title`
  and `tgme_page_extra` elements when found, `resp.url` the final URL).
* The background thread `LinkChecker.run` is modelled as the list of its
  observable actions: reads of the shared `is_running` flag (one Boolean
  per successive read, supplied by a schedule `flag : Nat → Bool`,
  because `stop()` may flip the flag between any two reads), rate-limiter
  acquisition, fetch start/end, Qt signal emissions, and thread-pool
  interactions.  The source creates a `ThreadPoolExecutor(max_workers=5)`
  but contains no `submit` call on it, so the `poolSubmit` action exists
  in the action alphabet yet is never produced by the model of `run`.
-/

/-- Python `str` as a list of characters. -/
abbrev PyStr := List Char

/-- Python `s.startswith(pre)`. -/
def startswith : PyStr → PyStr → Bool
  | _, [] => true
  | [], _ :: _ => false
  | c :: cs, p :: ps => c == p && startswith cs ps

/-- Python `str.strip()`: whitespace removed from both ends. -/
def stripChars (s : PyStr) : PyStr :=
  ((s.dropWhile Char.isWhitespace).reverse.dropWhile Char.isWhitespace).reverse

/-- Python `str.strip()` on a Lean `String`. -/
def pyStrip (s : String) : String := ⟨stripChars s.data⟩

/-- The canonical host path `https://t.me/` as a character list. -/
def tme : PyStr := ("https://t.me/").toList

/-- Lines 71–74 of main.py: the link-normalisation step at the top of the
try-block of `check_link` (the LinkNormalizer of the spec). -/
def normalizeLink (link : PyStr) : PyStr :=
  if startswith link ['@'] then tme ++ link.drop 1
  else if !(startswith link ['h', 't', 't', 'p']) then tme ++ link
  else link

/-- `RateLimiter.acquire` (lines 26–43 of main.py), fuelled.  State is the
list `self.requests` of admission timestamps, oldest first.  The leading
`dropWhile` is the `while ... pop(0)` purge loop; when the purged list still
has at least `maxR` entries the caller sleeps until the oldest entry leaves
the window and retries (`return self.acquire()`).  Indexing `requests[0]` on
an empty list (reachable only when `maxR = 0`, a configuration the program
never builds) is a Python `IndexError`, modelled as `none`; `none` is also
returned when the fuel runs out. -/
def acquireFuel (maxR : Nat) (window : ℚ) : Nat → ℚ → List ℚ → Option (ℚ × List ℚ)
  | 0, _, _ => none
  | fuel + 1, now, reqs =>
    let purged := reqs.dropWhile (fun r => decide (r ≤ now - window))
    if maxR ≤ purged.length then
      match purged with
      | [] => none
      | oldest :: rest =>
        let sleepTime := oldest + window - now
        if 0 < sleepTime then
          acquireFuel maxR window fuel (now + sleepTime) (oldest :: rest)
        else
          some (now, (oldest :: rest) ++ [now])
    else
      some (now, purged ++ [now])

/-- `RateLimiter.acquire`: returns the admission timestamp and the new
timestamp list.  One unit of fuel beyond the list length always suffices,
because every retry first discards at least the oldest surviving entry. -/
def acquire (maxR : Nat) (window now : ℚ) (reqs : List ℚ) : Option (ℚ × List ℚ) :=
  acquireFuel maxR window (reqs.length + 1) now reqs

/-- `n` sequential calls to `acquire`, each issued at the instant the
previous one returned (the sequential test scenario of the spec); yields
the list of admission timestamps. -/
def runCalls (maxR : Nat) (window : ℚ) : Nat → ℚ → List ℚ → Option (List ℚ)
  | 0, _, _ => some []
  | n + 1, now, reqs =>
    match acquire maxR window now reqs with
    | none => none
    | some (t, reqs2) =>
      match runCalls maxR window n t reqs2 with
      | none => none
      | some ts => some (t :: ts)

/-- A fetched-and-parsed preview page (the observable content of
`requests.get` plus the two `soup.find` lookups). -/
structure Response where
  title : Option String
  extra : Option String
  url : PyStr
deriving DecidableEq

/-- The result dictionary built by `check_link`.  Field names translate the
source's Chinese keys: `link` = '链接', `name` = '名称', `memberInfo` =
'成员信息', `status` = '状态', `checkedAt` = '检查时间', `redirectedTo` =
'重定向链接'. -/
structure LinkResult where
  link : PyStr
  name : String
  memberInfo : String
  status : String
  checkedAt : String
  redirectedTo : PyStr
deriving DecidableEq

/-- Observable actions of the checker thread. -/
inductive Act where
  | poolCreate (maxWorkers : Nat)
  | poolSubmit
  | flagRead (value : Bool)
  | rateAcquire
  | fetchStart (url : PyStr)
  | fetchEnd (url : PyStr)
  | emitProgress (link : PyStr) (result : LinkResult)
  | emitFinished
  | emitError (msg : String)
deriving DecidableEq

/-- `LinkChecker.check_link` (lines 61–112 of main.py), instrumented: the
pair of the action trace and the returned value.  `is_running` is the value
the method reads from the shared flag; a `false` read returns `None` before
any fetch is started.  Otherwise the method blocks on the rate limiter,
normalises the link, fetches and parses it, and builds the result
dictionary; every exception inside the try-block is caught and converted to
an error dictionary whose status carries the message. -/
def check_link_tr (is_running : Bool) (fetch : PyStr → Except String Response)
    (nowStr : String) (link : PyStr) : List Act × Option LinkResult :=
  if !is_running then
    ([Act.flagRead false], none)
  else
    let c := normalizeLink link
    match fetch c with
    | Except.error e =>
      ([Act.flagRead true, Act.rateAcquire, Act.fetchStart c, Act.fetchEnd c],
       some { link := c, name := "错误", memberInfo := "未知",
              status := "错误：" ++ e, checkedAt := nowStr, redirectedTo := [] })
    | Except.ok resp =>
      let base : LinkResult :=
        { link := c, name := "未知", memberInfo := "未知", status := "无效",
          checkedAt := nowStr, redirectedTo := [] }
      let r1 := if resp.url = c then base else { base with redirectedTo := resp.url }
      let r2 := match resp.title with
        | some t => { r1 with name := pyStrip t }
        | none => r1
      let r3 := match resp.extra with
        | some t => { r2 with memberInfo := pyStrip t }
        | none => r2
      ([Act.flagRead true, Act.rateAcquire, Act.fetchStart c, Act.fetchEnd c],
       some { r3 with status := if resp.title.isSome then "有效" else "无效" })

/-- The value returned by `check_link`. -/
def check_link (is_running : Bool) (fetch : PyStr → Except String Response)
    (nowStr : String) (link : PyStr) : Option LinkResult :=
  (check_link_tr is_running fetch nowStr link).2

/-- The `for link in self.links` loop of `LinkChecker.run`.  `flag k` is the
value of the `k`-th successive read of `self.is_running`; each iteration
reads the flag once at the loop head (breaking on `false`) and, via
`check_link`, once more.  A `some` result is emitted through
`progress_signal`, keyed by the original unstripped link. -/
def runAux (fetch : PyStr → Except String Response) (nowStr : String)
    (flag : Nat → Bool) : Nat → List PyStr → List Act
  | _, [] => []
  | k, link :: rest =>
    if !(flag k) then [Act.flagRead false]
    else
      let pr := check_link_tr (flag (k + 1)) fetch nowStr (stripChars link)
      Act.flagRead true :: pr.1 ++
        (match pr.2 with
         | some r => [Act.emitProgress link r]
         | none => []) ++ runAux fetch nowStr flag (k + 2) rest

/-- `LinkChecker.run` (lines 114–126 of main.py).  `poolExc = some e` models
`ThreadPoolExecutor(max_workers=5)` raising during setup, which the
surrounding try/except reports through `error_signal`; otherwise the pool
is created (and never handed any task — the body contains no `submit`
call), the loop runs, and `finished_signal` is emitted. -/
def run (poolExc : Option String) (fetch : PyStr → Except String Response)
    (nowStr : String) (flag : Nat → Bool) (links : List PyStr) : List Act :=
  match poolExc with
  | some e => [Act.emitError e]
  | none => Act.poolCreate 5 :: runAux fetch nowStr flag 0 links ++ [Act.emitFinished]

/-- The naive sequential reference loop (the refinement target of the
claim): handle the links strictly one at a time in submission order — poll
the flag (twice per item, as the code does), acquire the limiter, run the
fetch from start to end with nothing interleaved, emit the item's result —
then signal completion.  No task is ever given to a pool. -/
def naiveLoop (fetch : PyStr → Except String Response) (nowStr : String) :
    List PyStr → List Act
  | [] => []
  | l :: rest =>
    Act.flagRead true :: (check_link_tr true fetch nowStr (stripChars l)).1 ++
      (match check_link true fetch nowStr (stripChars l) with
       | some r => [Act.emitProgress l r]
       | none => []) ++ naiveLoop fetch nowStr rest

/-- The full naive sequential trace: pool created, links handled one at a
time in order, completion signalled. -/
def naiveSeqTrace (fetch : PyStr → Except String Response) (nowStr : String)
    (links : List PyStr) : List Act :=
  Act.poolCreate 5 :: naiveLoop fetch nowStr links ++ [Act.emitFinished]

/-- The `(originalLink, result)` pairs emitted through `progress_signal`,
in emission order. -/
def progressEvents (tr : List Act) : List (PyStr × LinkResult) :=
  tr.filterMap (fun a => match a with
    | Act.emitProgress l r => some (l, r)
    | _ => none)

/-- How many tasks were submitted to the thread pool. -/
def poolSubmits (tr : List Act) : Nat :=
  tr.countP (fun a => match a with
    | Act.poolSubmit => true
    | _ => false)

def maxInFlightAux : Nat → Nat → List Act → Nat
  | _, best, [] => best
  | cur, best, a :: rest =>
    let cur2 := match a with
      | Act.fetchStart _ => cur + 1
      | Act.fetchEnd _ => cur - 1
      | _ => cur
    maxInFlightAux cur2 (max best cur2) rest

/-- The largest number of fetches simultaneously in flight at any instant
of the trace. -/
def maxInFlight (tr : List Act) : Nat := maxInFlightAux 0 0 tr

/-- `TelegramToolsManager.update_check_result` as far as the aggregator is
concerned: the Python dict assignment `self.check_results[link] = result`
(update in place if the key exists, else append). -/
def update_check_result (d : List (PyStr × LinkResult)) (link : PyStr)
    (result : LinkResult) : List (PyStr × LinkResult) :=
  match d with
  | [] => [(link, result)]
  | (k, v) :: rest =>
    if k = link then (k, result) :: rest
    else (k, v) :: update_check_result rest link result

/-- One aggregator step per observed action: only progress emissions touch
`check_results`. -/
def aggStep (d : List (PyStr × LinkResult)) (a : Act) : List (PyStr × LinkResult) :=
  match a with
  | Act.emitProgress l r => update_check_result d l r
  | _ => d

/-- The aggregator (`self.check_results`) after draining a trace, starting
from the empty dict. -/
def aggregate (tr : List Act) : List (PyStr × LinkResult) :=
  tr.foldl aggStep []

/-- A terminal status in the source's encoding: Valid ('有效'),
Invalid ('无效'), or Error ('错误：' followed by the message). -/
def terminal (s : String) : Prop :=
  s = "有效" ∨ s = "无效" ∨ ∃ e, s = "错误：" ++ e

/-! ### Basic lemmas -/

lemma dropWhile_head_false {α : Type} (p : α → Bool) :
    ∀ (l : List α) (a : α) (t : List α), l.dropWhile p = a :: t → p a = false := by
  intro l
  induction l with
  | nil => intro a t h; simp [List.dropWhile] at h
  | cons b bs ih =>
    intro a t h
    by_cases hb : p b = true
    · rw [List.dropWhile_cons_of_pos hb] at h
      exact ih a t h
    · rw [List.dropWhile_cons_of_neg hb] at h
      cases h
      simpa using hb

lemma startswith_tme_at (t : PyStr) : startswith (tme ++ t) ['@'] = false := rfl

lemma startswith_tme_http (t : PyStr) :
    startswith (tme ++ t) ['h', 't', 't', 'p'] = true := rfl

/-! ### The normalizer: claims C9 and C10 -/

/-- C9: for every input string, the normalisation inside `check_link`
applies exactly these rules in order: an input starting with `@` has the
sigil stripped and is prefixed with `https://t.me/`; otherwise an input not
starting with `http` is prefixed with `https://t.me/` directly; otherwise
the input passes through unchanged.  The normaliser is a total function,
so it never fails. -/
theorem normalizeLink_rules (s : PyStr) :
    (startswith s ['@'] = true → normalizeLink s = tme ++ s.drop 1) ∧
    (startswith s ['@'] = false → startswith s ['h', 't', 't', 'p'] = false →
      normalizeLink s = tme ++ s) ∧
    (startswith s ['@'] = false → startswith s ['h', 't', 't', 'p'] = true →
      normalizeLink s = s) := by
  refine ⟨fun h1 => by simp [normalizeLink, h1],
    fun h1 h2 => by simp [normalizeLink, h1, h2],
    fun h1 h2 => by simp [normalizeLink, h1, h2]⟩

/-- Witness for C9: the `@`-rule evaluated on the concrete input `@chan`. -/
theorem normalizeLink_rules_witness :
    normalizeLink (("@chan").toList) = tme ++ (("@chan").toList).drop 1 :=
  (normalizeLink_rules (("@chan").toList)).1 (by decide)

/-- C10: the normaliser is idempotent — applying the normalisation a second
time to its own output returns the same canonical string. -/
theorem normalizeLink_idem (s : PyStr) :
    normalizeLink (normalizeLink s) = normalizeLink s := by
  by_cases h1 : startswith s ['@'] = true
  · simp [normalizeLink, h1, startswith_tme_at, startswith_tme_http]
  · by_cases h2 : startswith s ['h', 't', 't', 'p'] = true
    · simp [normalizeLink, h1, h2]
    · simp [normalizeLink, h1, h2, startswith_tme_at, startswith_tme_http]

/-! ### The rate limiter: claims C5 and C6 -/

/-- The admission timestamps produced by the spec's sequential scenario:
twenty immediate admissions at time 0, then five at time 60. -/
def c5Expected : List ℚ :=
  [0, 0, 0, 0, 0, 0, 0, 0, 0, 0, 0, 0, 0, 0, 0, 0, 0, 0, 0, 0, 60, 60, 60, 60, 60]

/-- C5: with `maxRequests = 20` and `window = 60`, 25 sequential `acquire`
calls (each issued the instant the previous one returns, starting at time 0
from an empty limiter) all complete; the 21st call's admission is delayed
until at least 60 seconds after the 1st call's admission timestamp; and no
call is admitted early — every admission is at least 60 seconds after the
admission twenty calls before it. -/
theorem rateLimiter_sequential_25 :
    runCalls 20 60 25 0 [] = some c5Expected ∧
    c5Expected.length = 25 ∧
    c5Expected.getD 0 0 + 60 ≤ c5Expected.getD 20 0 ∧
    ((List.range 25).all fun i =>
      decide (i < 20) || decide (c5Expected.getD (i - 20) 0 + 60 ≤ c5Expected.getD i 0)) = true := by
  refine ⟨by with_unfolding_all rfl, by norm_num [c5Expected], by norm_num [c5Expected],
    by norm_num [c5Expected, List.range_succ]⟩

lemma acquireFuel_length_le (maxR : Nat) (window : ℚ) :
    ∀ (fuel : Nat) (now rt : ℚ) (reqs s2 : List ℚ),
      acquireFuel maxR window fuel now reqs = some (rt, s2) → s2.length ≤ maxR := by
  intro fuel
  induction fuel with
  | zero => intro now rt reqs s2 h; simp [acquireFuel] at h
  | succ n ih =>
    intro now rt reqs s2 h
    simp only [acquireFuel] at h
    split at h
    · rename_i hlen
      split at h
      · exact absurd h (by simp)
      · rename_i oldest rest heq
        split at h
        · exact ih _ _ _ _ h
        · rename_i hsleep
          exfalso
          have hhead := dropWhile_head_false _ _ _ _ heq
          simp only [decide_eq_false_iff_not, not_le] at hhead
          apply hsleep
          linarith
    · rename_i hlen
      have h2 := h
      injection h2 with h3
      injection h3 with h4 h5
      subst h5
      simp only [List.length_append, List.length_cons, List.length_nil]
      omega

/-- C6: after any completed `acquire` call, whatever the starting state,
the limiter holds at most `maxRequests` admission timestamps — so at no
instant `t` does it hold more than `maxRequests` timestamps lying within
the trailing window `[t - window, t]`. -/
theorem rateLimiter_window_invariant (maxR : Nat) (window : ℚ) (fuel : Nat)
    (now rt : ℚ) (reqs s2 : List ℚ)
    (h : acquireFuel maxR window fuel now reqs = some (rt, s2)) (t : ℚ) :
    (s2.filter fun r => decide (t - window ≤ r) && decide (r ≤ t)).length ≤ maxR :=
  le_trans (List.length_filter_le _ _) (acquireFuel_length_le maxR window fuel now rt reqs s2 h)

/-- Witness for C6: a first call on the empty limiter admits at time 0, and
the invariant holds at the instant `t = 5`. -/
theorem rateLimiter_window_invariant_witness :
    acquireFuel 20 60 1 0 [] = some (0, [0]) ∧
    (([(0 : ℚ)]).filter fun r => decide ((5 : ℚ) - 60 ≤ r) && decide (r ≤ (5 : ℚ))).length ≤ 20 :=
  ⟨rfl, rateLimiter_window_invariant 20 60 1 0 0 [] [0] rfl 5⟩

/-! ### The fetch-and-parse stage: claim C4 -/

/-- C4: for every successfully fetched page, the record produced by
`check_link` has status Valid ('有效') if and only if the title element was
found; when no title was found the status is Invalid ('无效'); the display
name ('名称') is the (stripped) title-element text when the title element
is present, and the absent-sentinel '未知' otherwise. -/
theorem check_link_valid_iff_title (fetch : PyStr → Except String Response)
    (nowStr : String) (link : PyStr) (resp : Response)
    (h : fetch (normalizeLink link) = Except.ok resp) :
    ((check_link true fetch nowStr link).map LinkResult.status = some ("有效") ↔
      resp.title.isSome = true) ∧
    (resp.title = none →
      (check_link true fetch nowStr link).map LinkResult.status = some ("无效")) ∧
    (∀ t, resp.title = some t →
      (check_link true fetch nowStr link).map LinkResult.name = some (pyStrip t)) ∧
    (resp.title = none →
      (check_link true fetch nowStr link).map LinkResult.name = some ("未知")) := by
  obtain ⟨title, extra, url⟩ := resp
  cases title <;> cases extra <;> simp [check_link, check_link_tr, h, apply_ite]

/-- Witness for C4: a canned page whose title element text is ' Chan '
yields a Valid record whose display name is the stripped title text. -/
theorem check_link_valid_iff_title_witness :
    (check_link true (fun _ => Except.ok ⟨some (" Chan "), none, []⟩) ("ts")
        (("@x").toList)).map LinkResult.name = some (pyStrip (" Chan ")) :=
  (check_link_valid_iff_title (fun _ => Except.ok ⟨some (" Chan "), none, []⟩)
    ("ts") (("@x").toList) ⟨some (" Chan "), none, []⟩ rfl).2.2.1 (" Chan ") rfl

/-! ### Shape lemmas for the instrumented checker -/

lemma check_link_tr_false (fetch : PyStr → Except String Response) (nowStr : String)
    (link : PyStr) : check_link_tr false fetch nowStr link = ([Act.flagRead false], none) := rfl

lemma check_link_tr_true_fst (fetch : PyStr → Except String Response) (nowStr : String)
    (link : PyStr) :
    (check_link_tr true fetch nowStr link).1 =
      [Act.flagRead true, Act.rateAcquire, Act.fetchStart (normalizeLink link),
       Act.fetchEnd (normalizeLink link)] := by
  cases h : fetch (normalizeLink link) <;> simp [check_link_tr, h]

lemma check_link_true_isSome (fetch : PyStr → Except String Response) (nowStr : String)
    (link : PyStr) : (check_link true fetch nowStr link).isSome = true := by
  cases h : fetch (normalizeLink link) <;> simp [check_link, check_link_tr, h]

/-- The record `check_link` returns when the flag read `True`. -/
def checkRecord (fetch : PyStr → Except String Response) (nowStr : String)
    (link : PyStr) : LinkResult :=
  (check_link true fetch nowStr link).getD
    { link := [], name := "", memberInfo := "", status := "", checkedAt := "", redirectedTo := [] }

lemma check_link_true_eq (fetch : PyStr → Except String Response) (nowStr : String)
    (link : PyStr) :
    check_link true fetch nowStr link = some (checkRecord fetch nowStr link) := by
  unfold checkRecord
  cases hh : check_link true fetch nowStr link with
  | some r => rfl
  | none =>
    have := check_link_true_isSome fetch nowStr link
    rw [hh] at this
    simp at this

lemma terminal_checkRecord (fetch : PyStr → Except String Response) (nowStr : String)
    (link : PyStr) : terminal (checkRecord fetch nowStr link).status := by
  unfold terminal
  cases h : fetch (normalizeLink link) with
  | error e =>
    right; right
    exact ⟨e, by simp [checkRecord, check_link, check_link_tr, h]⟩
  | ok resp =>
    obtain ⟨title, extra, url⟩ := resp
    cases title with
    | none =>
      right; left
      cases extra <;>
        simp [checkRecord, check_link, check_link_tr, h] <;> split <;> rfl
    | some t =>
      left
      cases extra <;>
        simp [checkRecord, check_link, check_link_tr, h] <;> split <;> rfl

/-! ### The run loop is the naive sequential loop: claims C1 and C2 -/

lemma runAux_true_eq_naiveLoop (fetch : PyStr → Except String Response) (nowStr : String) :
    ∀ (links : List PyStr) (k : Nat),
      runAux fetch nowStr (fun _ => true) k links = naiveLoop fetch nowStr links := by
  intro links
  induction links with
  | nil => intro k; rfl
  | cons l rest ih => intro k; simp [runAux, naiveLoop, check_link, ih]

lemma run_eq_naiveSeqTrace (fetch : PyStr → Except String Response) (nowStr : String)
    (links : List PyStr) :
    run none fetch nowStr (fun _ => true) links = naiveSeqTrace fetch nowStr links := by
  simp [run, naiveSeqTrace, runAux_true_eq_naiveLoop]

lemma poolSubmits_runAux (fetch : PyStr → Except String Response) (nowStr : String)
    (flag : Nat → Bool) :
    ∀ (links : List PyStr) (k : Nat), poolSubmits (runAux fetch nowStr flag k links) = 0 := by
  intro links
  induction links with
  | nil => intro k; rfl
  | cons l rest ih =>
    intro k
    cases hk : flag k with
    | false => simp [runAux, hk, poolSubmits]
    | true =>
      cases hk2 : flag (k + 1) with
      | false =>
        have h := ih (k + 2)
        simp [poolSubmits] at h
        simp [runAux, hk, hk2, check_link_tr_false, poolSubmits, List.countP_cons,
          List.countP_append] <;> exact h
      | true =>
        have h := ih (k + 2)
        simp [poolSubmits] at h
        cases hf : fetch (normalizeLink (stripChars l)) <;>
          simp [runAux, hk, hk2, check_link_tr, hf, poolSubmits, List.countP_cons,
            List.countP_append] <;> exact h

lemma poolSubmits_run (fetch : PyStr → Except String Response) (nowStr : String)
    (flag : Nat → Bool) (links : List PyStr) :
    poolSubmits (run none fetch nowStr flag links) = 0 := by
  have h := poolSubmits_runAux fetch nowStr flag links 0
  simp [poolSubmits] at h
  simp [run, poolSubmits, List.countP_cons, List.countP_append] <;> exact h

lemma maxInFlightAux_runAux_le_one (fetch : PyStr → Except String Response) (nowStr : String)
    (flag : Nat → Bool) :
    ∀ (links : List PyStr) (k b : Nat), b ≤ 1 →
      maxInFlightAux 0 b (runAux fetch nowStr flag k links ++ [Act.emitFinished]) ≤ 1 := by
  intro links
  induction links with
  | nil =>
    intro k b hb
    simpa [runAux, maxInFlightAux] using hb
  | cons l rest ih =>
    intro k b hb
    cases hk : flag k with
    | false => simpa [runAux, hk, maxInFlightAux] using hb
    | true =>
      cases hk2 : flag (k + 1) with
      | false =>
        have h := ih (k + 2) b hb
        simpa [runAux, hk, hk2, check_link_tr_false, maxInFlightAux] using h
      | true =>
        cases hf : fetch (normalizeLink (stripChars l)) <;>
          · have h := ih (k + 2) (max b 1) (by simpa using hb)
            simpa [runAux, hk, hk2, check_link_tr, hf, maxInFlightAux] using h

lemma maxInFlight_run_le_one (fetch : PyStr → Except String Response) (nowStr : String)
    (flag : Nat → Bool) (links : List PyStr) :
    maxInFlight (run none fetch nowStr flag links) ≤ 1 := by
  have h := maxInFlightAux_runAux_le_one fetch nowStr flag links 0 0 (by omega)
  simpa [run, maxInFlight, maxInFlightAux] using h

/-- C2: the engine's run procedure is extensionally equal to a naive
sequential loop.  With the cancellation flag never set, the whole action
trace of `run` is exactly the naive sequential trace — links are processed
strictly one at a time in submission order and each link's result is
emitted before the next link's processing begins — at most one fetch is
ever in flight, and the created thread pool never receives any submitted
task. -/
theorem run_refines_naive_sequential_loop (fetch : PyStr → Except String Response)
    (nowStr : String) (links : List PyStr) :
    run none fetch nowStr (fun _ => true) links = naiveSeqTrace fetch nowStr links ∧
    poolSubmits (run none fetch nowStr (fun _ => true) links) = 0 ∧
    maxInFlight (run none fetch nowStr (fun _ => true) links) ≤ 1 :=
  ⟨run_eq_naiveSeqTrace fetch nowStr links,
    poolSubmits_run fetch nowStr (fun _ => true) links,
    maxInFlight_run_le_one fetch nowStr (fun _ => true) links⟩

/-- Counterexample to C1: on a five-link input with every fetch succeeding
and no stop request, the run's trace hands the created thread pool not a
single task and never has two fetches simultaneously in flight — refuting
the claim that pool workers pull the links and execute fetches in
parallel. -/
theorem run_no_parallel_counterexample :
    ¬ (1 ≤ poolSubmits (run none (fun _ => Except.ok ⟨some ("T"), none, []⟩) ("ts")
            (fun _ => true)
            [("a").toList, ("b").toList, ("c").toList, ("d").toList, ("e").toList]) ∧
       2 ≤ maxInFlight (run none (fun _ => Except.ok ⟨some ("T"), none, []⟩) ("ts")
            (fun _ => true)
            [("a").toList, ("b").toList, ("c").toList, ("d").toList, ("e").toList])) := by
  decide

/-- C1 (amended): `start(links)` does create a fixed-size thread pool with
the default 5 workers (the trace begins with its creation), but the pool
never receives any submitted task; the links are fetched sequentially by
the run loop itself, so at most one fetch is ever in flight, whatever the
flag schedule and input. -/
theorem run_pool_unused (fetch : PyStr → Except String Response) (nowStr : String)
    (flag : Nat → Bool) (links : List PyStr) :
    (run none fetch nowStr flag links).head? = some (Act.poolCreate 5) ∧
    poolSubmits (run none fetch nowStr flag links) = 0 ∧
    maxInFlight (run none fetch nowStr flag links) ≤ 1 :=
  ⟨rfl, poolSubmits_run fetch nowStr flag links,
    maxInFlight_run_le_one fetch nowStr flag links⟩

/-! ### Emitted events and the aggregator: claims C3 and C8 -/

lemma progressEvents_naiveLoop (fetch : PyStr → Except String Response) (nowStr : String) :
    ∀ links : List PyStr,
      progressEvents (naiveLoop fetch nowStr links) =
        links.map fun l => (l, checkRecord fetch nowStr (stripChars l)) := by
  intro links
  induction links with
  | nil => rfl
  | cons l rest ih =>
    rw [naiveLoop, check_link_true_eq, check_link_tr_true_fst]
    simp only [progressEvents, List.filterMap_append, List.filterMap_cons, List.cons_append,
      List.nil_append] at ih ⊢
    simp [ih]

lemma progressEvents_run (fetch : PyStr → Except String Response) (nowStr : String)
    (links : List PyStr) :
    progressEvents (run none fetch nowStr (fun _ => true) links) =
      links.map fun l => (l, checkRecord fetch nowStr (stripChars l)) := by
  rw [run_eq_naiveSeqTrace, naiveSeqTrace]
  simp only [progressEvents, List.filterMap_cons, List.filterMap_append]
  rw [← progressEvents_naiveLoop fetch nowStr links]
  simp [progressEvents]

/-- C3: every per-link failure is converted into a terminal Error record
and isolated.  (1) When the fetch-and-parse of a link raises with message
`e`, `check_link` still returns a record (no exception escapes) whose
status is the Error status '错误：e' carrying the failure description.
(2) In a full run every submitted link — including every link after a
failing one — gets its result emitted, so the run continues and no result
is dropped.  (3) Every emitted record carries a terminal status (Valid,
Invalid or Error), never Pending. -/
theorem check_link_error_isolated (fetch : PyStr → Except String Response)
    (nowStr : String) (links : List PyStr) :
    (∀ link e, fetch (normalizeLink (stripChars link)) = Except.error e →
      (check_link true fetch nowStr (stripChars link)).map LinkResult.status =
        some (("错误：" ++ e : String))) ∧
    (∀ l ∈ links,
      l ∈ (progressEvents (run none fetch nowStr (fun _ => true) links)).map Prod.fst) ∧
    (∀ l r, (l, r) ∈ progressEvents (run none fetch nowStr (fun _ => true) links) →
      terminal r.status) := by
  refine ⟨?_, ?_, ?_⟩
  · intro link e he
    simp [check_link, check_link_tr, he]
  · intro l hl
    rw [progressEvents_run]
    simp only [List.map_map]
    simpa using hl
  · intro l r hm
    rw [progressEvents_run] at hm
    simp only [List.mem_map] at hm
    obtain ⟨l2, _, heq⟩ := hm
    have : r = checkRecord fetch nowStr (stripChars l2) := (Prod.mk.injEq _ _ _ _ ▸ heq).2.symm
    rw [this]
    exact terminal_checkRecord fetch nowStr (stripChars l2)

/-- Witness for C3: a link whose fetch times out produces an emitted Error
record carrying the message. -/
theorem check_link_error_isolated_witness :
    (check_link true (fun _ => Except.error ("timeout")) ("ts")
        (stripChars (("x").toList))).map LinkResult.status =
      some (("错误：" ++ "timeout" : String)) :=
  (check_link_error_isolated (fun _ => Except.error ("timeout")) ("ts")
    [("x").toList]).1 (("x").toList) ("timeout") rfl

lemma foldl_aggStep_progress :
    ∀ (tr : List Act) (d : List (PyStr × LinkResult)),
      tr.foldl aggStep d =
        (progressEvents tr).foldl (fun d p => update_check_result d p.1 p.2) d := by
  intro tr
  induction tr with
  | nil => intro d; rfl
  | cons a rest ih =>
    intro d
    cases a <;> simp [aggStep, progressEvents, List.filterMap_cons, ih]

lemma update_check_result_fresh (k : PyStr) (v : LinkResult) :
    ∀ d : List (PyStr × LinkResult), k ∉ d.map Prod.fst →
      update_check_result d k v = d ++ [(k, v)] := by
  intro d
  induction d with
  | nil => intro _; rfl
  | cons p rest ih =>
    intro h
    obtain ⟨k2, v2⟩ := p
    simp only [List.map_cons, List.mem_cons] at h
    push_neg at h
    rw [update_check_result, if_neg (fun hk => h.1 hk.symm), ih h.2]
    simp

lemma foldl_update_fresh :
    ∀ (ps acc : List (PyStr × LinkResult)),
      (ps.map Prod.fst).Nodup →
      (∀ kk ∈ ps.map Prod.fst, kk ∉ acc.map Prod.fst) →
      ps.foldl (fun d p => update_check_result d p.1 p.2) acc = acc ++ ps := by
  intro ps
  induction ps with
  | nil => intro acc _ _; simp
  | cons p rest ih =>
    intro acc hnd hfresh
    obtain ⟨k, v⟩ := p
    simp only [List.map_cons, List.nodup_cons] at hnd
    have hk : k ∉ acc.map Prod.fst := hfresh k (List.mem_cons_self _ _)
    rw [List.foldl_cons, update_check_result_fresh k v acc hk, ih (acc ++ [(k, v)]) hnd.2]
    · simp
    · intro kk hkk
      simp only [List.map_append, List.mem_append, List.map_cons, List.map_nil]
      rintro (hin | hin)
      · exact hfresh kk (List.mem_cons_of_mem _ hkk) hin
      · simp only [List.mem_singleton] at hin
        exact hnd.1 (hin ▸ hkk)

lemma aggregate_run (fetch : PyStr → Except String Response) (nowStr : String)
    (links : List PyStr) (hnd : links.Nodup) :
    aggregate (run none fetch nowStr (fun _ => true) links) =
      links.map fun l => (l, checkRecord fetch nowStr (stripChars l)) := by
  rw [aggregate, foldl_aggStep_progress, progressEvents_run]
  rw [foldl_update_fresh _ [] (by simpa [List.map_map, Function.comp_def] using hnd) (by simp)]
  simp

/-- C8: for every input of N distinct links, after a run completes without
a stop, the aggregator's snapshot has exactly N entries, keyed exactly by
the original input links in order, and each entry holds a terminal status
(Valid, Invalid or Error). -/
theorem run_aggregates_all_links (fetch : PyStr → Except String Response)
    (nowStr : String) (links : List PyStr) (hnd : links.Nodup) :
    (aggregate (run none fetch nowStr (fun _ => true) links)).map Prod.fst = links ∧
    (aggregate (run none fetch nowStr (fun _ => true) links)).length = links.length ∧
    ∀ p ∈ aggregate (run none fetch nowStr (fun _ => true) links), terminal p.2.status := by
  rw [aggregate_run fetch nowStr links hnd]
  refine ⟨by simp [List.map_map, Function.comp_def], by simp, ?_⟩
  intro p hp
  simp only [List.mem_map] at hp
  obtain ⟨l, _, heq⟩ := hp
  rw [← heq]
  exact terminal_checkRecord fetch nowStr (stripChars l)

/-- Witness for C8: a two-link run aggregates exactly those two links as
keys, in order. -/
theorem run_aggregates_all_links_witness :
    (aggregate (run none (fun _ => Except.ok ⟨some ("T"), none, []⟩) ("ts")
        (fun _ => true) [("a").toList, ("b").toList])).map Prod.fst =
      [("a").toList, ("b").toList] :=
  (run_aggregates_all_links (fun _ => Except.ok ⟨some ("T"), none, []⟩) ("ts")
    [("a").toList, ("b").toList] (by decide)).1

/-! ### Stopping the engine: claim C7 -/

lemma append_split_notMem {α : Type} (a : α) :
    ∀ (p q us vs : List α), p ++ q = us ++ a :: vs → a ∉ p →
      ∃ ws, us = p ++ ws ∧ q = ws ++ a :: vs := by
  intro p
  induction p with
  | nil =>
    intro q us vs h _
    exact ⟨us, by simp, by simpa using h⟩
  | cons b p2 ih =>
    intro q us vs h hna
    cases us with
    | nil =>
      simp only [List.cons_append, List.nil_append] at h
      injection h with h1 _
      exact absurd (show a ∈ b :: p2 by rw [← h1]; exact List.mem_cons_self _ _) hna
    | cons c us2 =>
      simp only [List.cons_append] at h
      injection h with h1 h2
      subst h1
      obtain ⟨ws, hw1, hw2⟩ := ih q us2 vs h2 (fun hm => hna (List.mem_cons_of_mem _ hm))
      subst hw1
      exact ⟨ws, rfl, hw2⟩

lemma append_singleton_split {α : Type} (a b : α) (hne : a ≠ b) :
    ∀ (u l v : List α), l ++ [b] = u ++ a :: v →
      ∃ v2, v = v2 ++ [b] ∧ l = u ++ a :: v2 := by
  intro u
  induction u with
  | nil =>
    intro l v h
    cases l with
    | nil =>
      simp only [List.nil_append] at h
      injection h with h1 h2
      exact absurd h1.symm hne
    | cons d l2 =>
      simp only [List.cons_append, List.nil_append] at h
      injection h with h1 h2
      subst h1
      exact ⟨l2, h2.symm, rfl⟩
  | cons c u2 ih =>
    intro l v h
    cases l with
    | nil =>
      simp only [List.nil_append] at h
      injection h with _ h2
      cases u2 <;> simp at h2
    | cons d l2 =>
      simp only [List.cons_append] at h
      injection h with h1 h2
      subst h1
      obtain ⟨v2, hv1, hv2⟩ := ih l2 v h2
      exact ⟨v2, hv1, by rw [hv2]; rfl⟩

lemma runAux_flag_false (fetch : PyStr → Except String Response) (nowStr : String)
    (flag : Nat → Bool) (k : Nat) (links : List PyStr) (hk : flag k = false) :
    ∀ a ∈ runAux fetch nowStr flag k links, a = Act.flagRead false := by
  cases links with
  | nil => intro a ha; simp [runAux] at ha
  | cons l rest =>
    intro a ha
    simp [runAux, hk] at ha
    exact ha

lemma check_link_tr_true_snd (fetch : PyStr → Except String Response) (nowStr : String)
    (link : PyStr) :
    (check_link_tr true fetch nowStr link).2 = some (checkRecord fetch nowStr link) :=
  check_link_true_eq fetch nowStr link

lemma runAux_after_false (fetch : PyStr → Except String Response) (nowStr : String)
    (flag : Nat → Bool)
    (hmono : ∀ i j, i ≤ j → flag i = false → flag j = false) :
    ∀ (links : List PyStr) (k : Nat) (us vs : List Act),
      runAux fetch nowStr flag k links = us ++ Act.flagRead false :: vs →
      ∀ a ∈ vs, a = Act.flagRead false := by
  intro links
  induction links with
  | nil =>
    intro k us vs h
    rw [runAux] at h
    cases us <;> simp at h
  | cons l rest ih =>
    intro k us vs h
    cases hk : flag k with
    | false =>
      simp only [runAux, hk, Bool.not_false, if_true] at h
      cases us with
      | nil =>
        simp only [List.nil_append] at h
        injection h with _ h2
        intro a ha
        rw [← h2] at ha
        cases ha
      | cons c us2 =>
        simp only [List.cons_append] at h
        injection h with _ h2
        cases us2 <;> simp at h2
    | true =>
      cases hk2 : flag (k + 1) with
      | false =>
        simp only [runAux, hk, hk2, Bool.not_true, if_false, check_link_tr_false,
          List.cons_append, List.nil_append, List.append_assoc] at h
        cases us with
        | nil =>
          simp only [List.nil_append] at h
          injection h with h1 _
          exact absurd h1 (by simp)
        | cons c us2 =>
          simp only [List.cons_append] at h
          injection h with _ h2
          cases us2 with
          | nil =>
            simp only [List.nil_append] at h2
            injection h2 with _ h3
            intro a ha
            rw [← h3] at ha
            exact runAux_flag_false fetch nowStr flag (k + 2) rest
              (hmono (k + 1) (k + 2) (by omega) hk2) a ha
          | cons d us3 =>
            simp only [List.cons_append] at h2
            injection h2 with _ h4
            intro a ha
            have hk3 : flag (k + 2) = false := hmono (k + 1) (k + 2) (by omega) hk2
            have hmem : a ∈ runAux fetch nowStr flag (k + 2) rest := by
              rw [h4]
              exact List.mem_append_right _ (List.mem_cons_of_mem _ ha)
            exact runAux_flag_false fetch nowStr flag (k + 2) rest hk3 a hmem
      | true =>
        simp only [runAux, hk, hk2, Bool.not_true, if_false, check_link_tr_true_fst,
          check_link_tr_true_snd, List.cons_append, List.nil_append, List.append_assoc] at h
        obtain ⟨ws, _, hw2⟩ := append_split_notMem (Act.flagRead false)
          [Act.flagRead true, Act.flagRead true, Act.rateAcquire,
           Act.fetchStart (normalizeLink (stripChars l)),
           Act.fetchEnd (normalizeLink (stripChars l)),
           Act.emitProgress l (checkRecord fetch nowStr (stripChars l))]
          (runAux fetch nowStr flag (k + 2) rest) us vs (by exact h) (by simp)
        exact ih (k + 2) ws vs hw2

lemma foldl_aggStep_neutral :
    ∀ (zs : List Act) (d : List (PyStr × LinkResult)),
      (∀ a ∈ zs, a = Act.flagRead false ∨ a = Act.emitFinished) →
      zs.foldl aggStep d = d := by
  intro zs
  induction zs with
  | nil => intro d _; rfl
  | cons a rest ih =>
    intro d h
    rcases h a (List.mem_cons_self _ _) with h1 | h1 <;>
      · subst h1
        rw [List.foldl_cons]
        exact ih d fun b hb => h b (List.mem_cons_of_mem _ hb)

/-- C7: once a `False` value of the cancellation flag is observed, the run
dispatches no further fetch and emits no further result — everything after
that observation is flag polling and the terminal completion signal; the
engine does reach its terminal state (the completion signal is emitted
after the stop); and the aggregator's final content equals its content at
the stop observation, so all results emitted before the stop remain in it
unchanged. -/
theorem run_stop_behaviour (fetch : PyStr → Except String Response) (nowStr : String)
    (flag : Nat → Bool) (links : List PyStr)
    (hmono : ∀ i j, i ≤ j → flag i = false → flag j = false)
    (xs ys : List Act)
    (hsplit : run none fetch nowStr flag links = xs ++ Act.flagRead false :: ys) :
    (∀ a ∈ ys, a = Act.flagRead false ∨ a = Act.emitFinished) ∧
    Act.emitFinished ∈ ys ∧
    aggregate (run none fetch nowStr flag links) = aggregate xs := by
  cases xs with
  | nil =>
    exfalso
    simp only [run, List.nil_append] at hsplit
    injection hsplit with h1 _
    exact absurd h1 (by simp)
  | cons x xs2 =>
    have hcopy := hsplit
    simp only [run, List.cons_append] at hcopy
    injection hcopy with _ hx2
    obtain ⟨ys2, hys, haux⟩ := append_singleton_split (Act.flagRead false) Act.emitFinished
      (by simp) xs2 (runAux fetch nowStr flag 0 links) ys hx2
    have h1 : ∀ a ∈ ys, a = Act.flagRead false ∨ a = Act.emitFinished := by
      intro a ha
      rw [hys] at ha
      rcases List.mem_append.mp ha with haa | haa
      · exact Or.inl (runAux_after_false fetch nowStr flag hmono links 0 xs2 ys2 haux a haa)
      · right; simpa using haa
    refine ⟨h1, ?_, ?_⟩
    · rw [hys]
      exact List.mem_append_right _ (by simp)
    · rw [hsplit, aggregate, List.foldl_append, List.foldl_cons]
      exact foldl_aggStep_neutral ys _ h1

/-- Witness for C7: stop observed at the very first flag poll of a one-link
run — the trace splits at that observation, completion is still signalled
afterwards, and the aggregator is unchanged by the tail. -/
theorem run_stop_behaviour_witness :
    Act.emitFinished ∈ ([Act.emitFinished] : List Act) ∧
    aggregate (run none (fun _ => Except.error ("x")) ("ts") (fun _ => false)
        [("a").toList]) =
      aggregate [Act.poolCreate 5] := by
  have h := run_stop_behaviour (fun _ => Except.error ("x")) ("ts") (fun _ => false)
    [("a").toList] (fun _ _ _ _ => rfl) [Act.poolCreate 5] [Act.emitFinished] rfl
  exact ⟨h.2.1, h.2.2⟩
